import Mathlib

/-!
# Verification of `dtsgenerator-plugin-use-enums` (`src/index.ts`)

This file gives a shallow embedding of the transformation logic of
`src/index.ts` and proves or refutes the frozen claims about it.

Modelling conventions:
* JavaScript strings are modelled by Lean `String`.  The JavaScript string
  operations used by the plugin (`toUpperCase`, `toLowerCase`,
  `charAt(0).toUpperCase()`, the regexes `[^a-zA-Z0-9_]`, `[-_]+`,
  `^[A-Z][a-zA-Z0-9]*$` and the "invalid character" class, and the default
  `Array.prototype.sort` comparison) are modelled character-wise over
  `String.data`.  Case mapping is modelled for the ASCII range (the only
  range in which the plugin's own regex-based pipeline feeds characters to
  the case maps in a way that matters for the claims; JavaScript's Unicode
  case mapping agrees with the ASCII table on these inputs).  The default
  JavaScript sort compares UTF-16 code-unit sequences; this is modelled by
  code-point lexicographic order, which agrees on strings of BMP
  characters.  Since equal strings are indistinguishable, the stable JS
  sort of a string array equals any correct sort, modelled here by
  insertion sort.
* JavaScript `Map` preserves insertion order and `Map.set` of an existing
  key updates in place; this is modelled by association lists with
  an in-place-updating `mapSet`.  `Set` is modelled by a duplicate-free
  list with order-preserving `setAdd`.
* `JSON.stringify` of a sorted array of strings is injective, so the
  `valuesKey` of `registerEnum` is modelled by the sorted value list
  itself.
-/

namespace UseEnums

/-! ## Character tables (ASCII fragment of the JS string primitives) -/

/-- The lowercase/uppercase ASCII letter pairs. -/
def letterPairs : List (Char × Char) :=
  [('a', 'A'), ('b', 'B'), ('c', 'C'), ('d', 'D'), ('e', 'E'), ('f', 'F'),
   ('g', 'G'), ('h', 'H'), ('i', 'I'), ('j', 'J'), ('k', 'K'), ('l', 'L'),
   ('m', 'M'), ('n', 'N'), ('o', 'O'), ('p', 'P'), ('q', 'Q'), ('r', 'R'),
   ('s', 'S'), ('t', 'T'), ('u', 'U'), ('v', 'V'), ('w', 'W'), ('x', 'X'),
   ('y', 'Y'), ('z', 'Z')]

/-- ASCII model of `String.prototype.toUpperCase` on one character. -/
def upChar (c : Char) : Char :=
  (((letterPairs.find? (fun p => p.1 = c)).map (fun p => p.2)).getD c)

/-- ASCII model of `String.prototype.toLowerCase` on one character. -/
def lowChar (c : Char) : Char :=
  (((letterPairs.find? (fun p => p.2 = c)).map (fun p => p.1)).getD c)

def upStr (s : String) : String := String.mk (s.data.map upChar)

def lowStr (s : String) : String := String.mk (s.data.map lowChar)

def digitChars : List Char := ['0', '1', '2', '3', '4', '5', '6', '7', '8', '9']

def lowerChars : List Char := letterPairs.map (fun p => p.1)

def upperChars : List Char := letterPairs.map (fun p => p.2)

/-- The character class `[a-zA-Z0-9_]` of the regex in `getEnumMember`
(`value.replace(/[^a-zA-Z0-9_]/g, '_')`). -/
def wordChar (c : Char) : Bool :=
  (lowerChars ++ upperChars ++ digitChars ++ ['_']).contains c

/-- One character of `value.replace(/[^a-zA-Z0-9_]/g, '_')`. -/
def replChar (c : Char) : Char := if wordChar c then c else '_'

/-- Model of `value.replace(/[^a-zA-Z0-9_]/g, '_')`. -/
def replaceNonWord (s : String) : String := String.mk (s.data.map replChar)

/-- The whitespace characters matched by `\s` in a JavaScript regex. -/
def jsWhitespace : List Char :=
  [' ', '\t', '\n', (Char.ofNat 11), (Char.ofNat 12), '\r',
   (Char.ofNat 0xa0), (Char.ofNat 0x1680), (Char.ofNat 0x2000),
   (Char.ofNat 0x2001), (Char.ofNat 0x2002), (Char.ofNat 0x2003),
   (Char.ofNat 0x2004), (Char.ofNat 0x2005), (Char.ofNat 0x2006),
   (Char.ofNat 0x2007), (Char.ofNat 0x2008), (Char.ofNat 0x2009),
   (Char.ofNat 0x200a), (Char.ofNat 0x2028), (Char.ofNat 0x2029),
   (Char.ofNat 0x202f), (Char.ofNat 0x205f), (Char.ofNat 0x3000),
   (Char.ofNat 0xfeff)]

/-- The character class of the `hasInvalidChars` regex in `getEnumMember`:
`[\s&\-+.(){}[\]^%$#@!,;:'"\/\\<>?=*|~`]` (the last listed character is the
backquote, written numerically below). -/
def invalidChar (c : Char) : Bool :=
  jsWhitespace.contains c ||
  (['&', '-', '+', '.', '(', ')', (Char.ofNat 0x7b), (Char.ofNat 0x7d),
    '[', ']', '^', '%', '$', '#', '@', '!', ',', ';', ':', '\'', '"',
    '/', '\\', '<', '>', '?', '=', '*', '|', '~', (Char.ofNat 96)]).contains c

/-- Model of the test `hasInvalidChars` regex applied to a value. -/
def hasInvalidChars (v : String) : Bool := v.data.any invalidChar

/-! ## JS default string sort (`values.sort()`)

The default `Array.prototype.sort` compares strings lexicographically by
code units; on BMP strings this is code-point lexicographic order. -/

/-- Lexicographic code-point comparison of character lists (`a <= b`). -/
def lexLe : List Char → List Char → Bool
  | [], _ => true
  | _ :: _, [] => false
  | a :: as, b :: bs =>
    if a.toNat < b.toNat then true
    else if b.toNat < a.toNat then false
    else lexLe as bs

def strLe (a b : String) : Bool := lexLe a.data b.data

def insSorted (x : String) : List String → List String
  | [] => [x]
  | y :: ys => if strLe x y then x :: y :: ys else y :: insSorted x ys

/-- Model of `values.sort()` on an array of strings (any correct sort; the JS sort
is stable, but duplicates are identical strings so stability is moot). -/
def jsSort (l : List String) : List String := l.foldr insSorted []

/-! ## `toPascalCase` (src/index.ts lines 663-675) -/

/-- The test `/^[A-Z][a-zA-Z0-9]*$/.test(str)`. -/
def pascalShaped (s : String) : Bool :=
  match s.data with
  | [] => false
  | c :: rest =>
    upperChars.contains c &&
    rest.all (fun d => (lowerChars ++ upperChars ++ digitChars).contains d)

/-- Model of `str.split(/[-_]+/)` followed by `.filter(Boolean)`: splitting on runs
of separators and keeping the nonempty pieces equals splitting on every
single separator and filtering out empty pieces. -/
def splitWords (s : String) : List String :=
  ((s.data.splitOnP (fun c => c = '-' || c = '_')).map String.mk).filter
    (fun w => w ≠ "")

/-- Model of `word.charAt(0).toUpperCase() + word.slice(1).toLowerCase()`. -/
def capWord (w : String) : String :=
  match w.data with
  | [] => ""
  | c :: rest => String.mk (upChar c :: rest.map lowChar)

/-- Model of `str.charAt(0).toUpperCase() + str.slice(1)` (the fallback). -/
def capFirst (s : String) : String :=
  match s.data with
  | [] => ""
  | c :: rest => String.mk (upChar c :: rest)

/-- The function `toPascalCase` from src/index.ts. -/
def toPascalCase (str : String) : String :=
  if str = "" then ""
  else if pascalShaped str then str
  else
    let joined := String.join ((splitWords str).map capWord)
    if joined = "" then capFirst str else joined

/-! ## `getEnumMember` (src/index.ts lines 695-722) -/

inductive EnumCasing where
  | value
  | upper
  | lower
  | pascal
deriving DecidableEq, Repr

inductive EnumStrategy where
  | schema
  | all
deriving DecidableEq, Repr

structure EnumPluginOptions where
  consistentEnumCasing : Option EnumCasing := none
  constEnums : Bool := false
  enumStrategy : Option EnumStrategy := none
deriving DecidableEq, Repr

structure EnumMemberPair where
  enumKey : String
  enumValue : String
deriving DecidableEq, Repr

def quoteStr (v : String) : String := "\"" ++ v ++ "\""

/-- The function `getEnumMember` from src/index.ts. -/
def getEnumMember (consistentEnumCasing : Option EnumCasing) (value : String) :
    EnumMemberPair :=
  match consistentEnumCasing with
  | some .value =>
    { enumKey := if hasInvalidChars value then quoteStr value else value,
      enumValue := value }
  | some .upper =>
    { enumKey := upStr (replaceNonWord value),
      enumValue := upStr (replaceNonWord value) }
  | some .lower =>
    { enumKey := lowStr (replaceNonWord value),
      enumValue := lowStr (replaceNonWord value) }
  | some .pascal =>
    { enumKey := toPascalCase value, enumValue := toPascalCase value }
  | none =>
    { enumKey := toPascalCase value, enumValue := value }

/-! ## Registry state (the module-level maps/sets of src/index.ts) -/

structure EnumInfo where
  name : String
  values : List String
  namespacePath : List String
  pascalCaseName : String
  fullPath : String
deriving DecidableEq, Repr

/-- The module-level mutable state of the plugin: `enumRegistry`,
`enumsByValues`, `enumsByPath`, `processedEnums`, `schemaDefinedEnums`.
Maps are association lists in insertion order; sets are duplicate-free
lists in insertion order. -/
structure St where
  enumRegistry : List (String × List String) := []
  enumsByValues : List (List String × EnumInfo) := []
  enumsByPath : List (String × EnumInfo) := []
  processedEnums : List String := []
  schemaDefinedEnums : List String := []
deriving DecidableEq, Repr

/-- Lookup, modelling `Map.get`. -/
def mapGet {α β : Type} [DecidableEq α] : List (α × β) → α → Option β
  | [], _ => none
  | (k, v) :: rest, key => if k = key then some v else mapGet rest key

/-- Update, modelling `Map.set`: updates an existing key in place (JS Maps keep the original
insertion position), otherwise appends. -/
def mapSet {α β : Type} [DecidableEq α] : List (α × β) → α → β → List (α × β)
  | [], key, v => [(key, v)]
  | (k, v') :: rest, key, v =>
    if k = key then (key, v) :: rest else (k, v') :: mapSet rest key v

/-- Insertion, modelling `Set.add`. -/
def setAdd (s : List String) (x : String) : List String :=
  if s.contains x then s else s ++ [x]

/-- The function `arraysEqual` from src/index.ts (lines 677-693): equal lengths plus the
count-map comparison, i.e. multiset equality of the two arrays. -/
def removeFirst (x : String) : List String → Option (List String)
  | [] => none
  | y :: ys => if y = x then some ys else (removeFirst x ys).map (fun r => y :: r)

def arraysEqualAux : List String → List String → Bool
  | _, [] => true
  | avail, x :: xs =>
    match removeFirst x avail with
    | some rest => arraysEqualAux rest xs
    | none => false

def arraysEqual (a b : List String) : Bool :=
  a.length = b.length && arraysEqualAux a b

/-- The function `getFullPathFromQualifiedName`: flattens a qualified name into its
dotted path (qualified names are modelled as their part lists). -/
def getFullPathFromQualifiedName (parts : List String) : String :=
  String.intercalate "." parts

/-- The function `registerEnum` from src/index.ts (lines 567-595).  `values.sort()`
sorts the array in place, so the stored `values` of a new `EnumInfo` are
the sorted values; the `valuesKey` (`JSON.stringify` of the sorted array,
injective on string arrays) is modelled by the sorted list itself. -/
def registerEnum (name : String) (values : List String)
    (namespacePath : List String) (st : St) : St :=
  let sorted := jsSort values
  let fullPath := String.intercalate "." (namespacePath ++ [name])
  let pascalCaseName := toPascalCase name
  match mapGet st.enumsByValues sorted with
  | some existingEnum =>
    { st with enumsByPath := mapSet st.enumsByPath fullPath existingEnum }
  | none =>
    let enumInfo : EnumInfo :=
      { name := name, values := sorted, namespacePath := namespacePath,
        pascalCaseName := pascalCaseName, fullPath := fullPath }
    { st with
        enumsByValues := mapSet st.enumsByValues sorted enumInfo,
        enumsByPath := mapSet st.enumsByPath fullPath enumInfo,
        enumRegistry := mapSet st.enumRegistry pascalCaseName namespacePath }

def strEndsWith (s suffix : String) : Bool :=
  suffix.data.isSuffixOf s.data

/-- The function `isSchemaDefinedEnum` from src/index.ts (lines 626-661). -/
def isSchemaDefinedEnum (sd : List String) (name : String)
    (values : List String) : Bool :=
  let nameLower := lowStr name
  if sd.contains nameLower then true
  else if sd.contains ("components.schemas." ++ nameLower) then true
  else if sd.contains ("components.responses." ++ nameLower) then true
  else
    sd.any (fun enumPath =>
      strEndsWith enumPath ("." ++ nameLower) ||
      values.any (fun v => enumPath = nameLower ++ "." ++ lowStr v))

/-! ## Schema objects and `extractSchemaEnums` (src/index.ts lines 489-565)

Schema documents are JSON-like values.  (Mutual inductives are used so all
traversals are structurally recursive.)  A string-valued `properties`
field, whose JS `Object.entries` would enumerate its characters, is not
modelled (treated as having no entries); non-string members of an `enum`
array (which would make the JS code throw on `.toLowerCase()`) are
ignored. -/

mutual
inductive Json where
  | str (s : String)
  | num (n : Int)
  | bool (b : Bool)
  | null
  | arr (items : JsonList)
  | obj (fields : JsonFields)
deriving DecidableEq, Repr

inductive JsonList where
  | nil
  | cons (hd : Json) (tl : JsonList)
deriving DecidableEq, Repr

inductive JsonFields where
  | nil
  | cons (key : String) (val : Json) (tl : JsonFields)
deriving DecidableEq, Repr
end

def jfGet : JsonFields → String → Option Json
  | .nil, _ => none
  | .cons k v rest, key => if k = key then some v else jfGet rest key

/-- The string elements of an `enum` array. -/
def jlStrings : JsonList → List String
  | .nil => []
  | .cons (.str s) rest => s :: jlStrings rest
  | .cons _ rest => jlStrings rest

/-- The body of the `{type: "string", enum: [...]}` branch of
`extractSchemaEnums` (lines 494-531). -/
def registerSchemaEnum (path : List String) (values : List String)
    (st : St) : St :=
  match path.getLast? with
  | none => st
  | some enumName =>
    if enumName = "" then st
    else
      let nameL := lowStr enumName
      let fullPath := lowStr (String.intercalate "." path)
      let sd1 := setAdd (setAdd st.schemaDefinedEnums nameL) fullPath
      let sd2 := (List.range path.length).foldl (fun s i =>
        let partialPath := lowStr (String.intercalate "." (path.drop i))
        if partialPath ≠ "" then
          let s1 := setAdd s partialPath
          if 0 < i then
            setAdd s1 (lowStr (String.intercalate "." (path.drop i ++ [enumName])))
          else s1
        else s) sd1
      let sd3 := values.foldl (fun s v => setAdd s (nameL ++ "." ++ lowStr v)) sd2
      let reg :=
        if 2 ≤ path.length then
          mapSet st.enumRegistry (toPascalCase enumName) ((path.take 2).map capFirst)
        else st.enumRegistry
      { st with schemaDefinedEnums := sd3, enumRegistry := reg }

mutual
/-- Size of a JSON tree (used as a recursion-depth bound below). -/
def jsonSize : Json → Nat
  | .obj fields => 1 + jfSize fields
  | .arr items => 1 + jlSize items
  | _ => 1

def jlSize : JsonList → Nat
  | .nil => 1
  | .cons hd tl => 1 + jsonSize hd + jlSize tl

def jfSize : JsonFields → Nat
  | .nil => 1
  | .cons _ v tl => 1 + jsonSize v + jfSize tl
end

/-!
The JS `extractSchemaEnums` recursion is not structurally recursive on the
JSON tree as seen by Lean (sub-schemas are obtained through key lookups),
so the translation below carries an explicit fuel argument, decremented on
every call, purely as a termination device.  Every recursive call descends
to a strict subterm or a list tail, so any fuel of at least `jsonSize` of
the input makes the fuel inexhaustible and the functions agree with the JS
recursion; `preProcessRun` below supplies `jsonSize content + 1`.
-/

mutual
/-- The function `extractSchemaEnums` from src/index.ts. -/
def extractSchemaEnums : Nat → Json → List String → St → St
  | 0, _, _, st => st
  | fuel + 1, content, path, st =>
    match content with
    | .obj fields =>
      let st1 :=
        match jfGet fields "type", jfGet fields "enum" with
        | some (.str "string"), some (.arr items) =>
          registerSchemaEnum path (jlStrings items) st
        | _, _ => st
      let st2 :=
        match jfGet fields "oneOf" with
        | some (.arr items) => extractOneOf fuel items 0 path st1
        | _ => st1
      let st3 :=
        match jfGet fields "anyOf" with
        | some (.arr items) => extractAnyOf fuel items 0 path st2
        | _ => st2
      match jfGet fields "properties" with
      | some (.obj props) => extractEntries fuel props path st3
      | some (.arr items) => extractIndexed fuel items 0 path st3
      | _ => extractEntries fuel fields path st3
    | .arr items => extractIndexed fuel items 0 path st
    | _ => st

/-- One iteration of the `oneOf` loop, including the nested `properties`
walk of each `oneOf` item. -/
def extractOneOf : Nat → JsonList → Nat → List String → St → St
  | 0, _, _, _, st => st
  | fuel + 1, items, i, path, st =>
    match items with
    | .nil => st
    | .cons item rest =>
      let tag := "oneOf[" ++ toString i ++ "]"
      let st1 := extractSchemaEnums fuel item (path ++ [tag]) st
      let st2 :=
        match item with
        | .obj ifields =>
          match jfGet ifields "properties" with
          | some (.obj props) =>
            extractEntries fuel props (path ++ [tag ++ ".properties"]) st1
          | some (.arr its) =>
            extractIndexed fuel its 0 (path ++ [tag ++ ".properties"]) st1
          | _ => st1
        | _ => st1
      extractOneOf fuel rest (i + 1) path st2

/-- The `anyOf` loop. -/
def extractAnyOf : Nat → JsonList → Nat → List String → St → St
  | 0, _, _, _, st => st
  | fuel + 1, items, i, path, st =>
    match items with
    | .nil => st
    | .cons item rest =>
      let st1 := extractSchemaEnums fuel item (path ++ ["anyOf[" ++ toString i ++ "]"]) st
      extractAnyOf fuel rest (i + 1) path st1

/-- The `for (const [key, value] of Object.entries(...))` recursion. -/
def extractEntries : Nat → JsonFields → List String → St → St
  | 0, _, _, st => st
  | fuel + 1, fields, path, st =>
    match fields with
    | .nil => st
    | .cons k v rest =>
      extractEntries fuel rest path (extractSchemaEnums fuel v (path ++ [k]) st)

/-- The `Object.entries` walk of an array: index keys `"0"`, `"1"`, ... -/
def extractIndexed : Nat → JsonList → Nat → List String → St → St
  | 0, _, _, _, st => st
  | fuel + 1, items, i, path, st =>
    match items with
    | .nil => st
    | .cons item rest =>
      extractIndexed fuel rest (i + 1) path
        (extractSchemaEnums fuel item (path ++ [toString i]) st)
end

/-- The clearing prologue of `preProcess` (src/index.ts lines 54-59). -/
def clearState (st : St) : St :=
  { st with enumRegistry := [], enumsByValues := [], enumsByPath := [],
            processedEnums := [], schemaDefinedEnums := [] }

/-- The hook `preProcess`: clear all module-level state, then run the schema enum
extractor over every input schema. -/
def preProcessRun (schemas : List Json) (prev : St) : St :=
  schemas.foldl (fun s j => extractSchemaEnums (jsonSize j + 1) j [] s)
    (clearState prev)

/-! ## The declaration AST

The fragment of the TypeScript AST the plugin inspects: namespace
(module) declarations, interfaces, type aliases, property signatures,
enum declarations.  Types are modelled by the shapes the plugin
distinguishes: a union consisting entirely of string literals, a simple
(identifier) type reference, a namespace-qualified type reference
(flattened to its dotted part list), and an opaque other type.  Enum
members are modelled with string initializers (the only members the
plugin reads or writes); `keyIsString` records whether the member key is
a string literal rather than an identifier. -/

inductive Ty where
  | strUnion (values : List String)
  | refIdent (name : String)
  | refQual (parts : List String)
  | otherTy
deriving DecidableEq, Repr

structure Member where
  keyIsString : Bool
  key : String
  value : String
deriving DecidableEq, Repr

mutual
inductive Node where
  | module (name : String) (body : NodeList)
  | iface (name : String) (members : NodeList)
  | typeAlias (name : String) (ty : Ty)
  | propSig (name : String) (ty : Ty)
  | enumDecl (isConst : Bool) (name : String) (members : List Member)
  | otherNode
deriving DecidableEq, Repr

inductive NodeList where
  | nil
  | cons (hd : Node) (tl : NodeList)
deriving DecidableEq, Repr
end

def nlOf : List Node → NodeList
  | [] => .nil
  | n :: rest => .cons n (nlOf rest)

def nlAppend : NodeList → NodeList → NodeList
  | .nil, ys => ys
  | .cons x xs, ys => .cons x (nlAppend xs ys)

/-- Building one emitted enum member (src/index.ts lines 169-185 and
253-269): the key from `getEnumMember` becomes a string-literal key with
the surrounding quotes stripped when it starts with a quote, otherwise an
identifier key. -/
def mkEnumMember (casing : Option EnumCasing) (value : String) : Member :=
  let p := getEnumMember casing value
  match p.enumKey.data with
  | '"' :: _ =>
    { keyIsString := true,
      key := String.mk ((p.enumKey.data.drop 1).dropLast),
      value := p.enumValue }
  | _ => { keyIsString := false, key := p.enumKey, value := p.enumValue }

/-! ## Collection pass (`collectEnums`, src/index.ts lines 85-151) -/

mutual
/-- The function `collectEnums`.  Note the source ends with an unconditional
`ts.forEachChild(node, child => collectEnums(child, namespacePath))`, so a
module's statements are traversed twice: once (via the module branch) with
the extended namespace path, and once (via `forEachChild` through the
module block) with the unchanged outer path. -/
def collectEnums (strategy : EnumStrategy) : Node → List String → St → St
  | .module n body, namespacePath, st =>
    let st1 := collectEnumsList strategy body (namespacePath ++ [n]) st
    collectEnumsList strategy body namespacePath st1
  | .typeAlias n (.strUnion vs), namespacePath, st =>
    if !vs.isEmpty &&
        (strategy == .all || isSchemaDefinedEnum st.schemaDefinedEnums n vs) then
      registerEnum n vs namespacePath st
    else st
  | .typeAlias _ _, _, st => st
  | .propSig n (.strUnion vs), namespacePath, st =>
    if strategy == .all && !vs.isEmpty then registerEnum n vs namespacePath st
    else st
  | .propSig _ _, _, st => st
  | .iface _ members, namespacePath, st =>
    collectEnumsList strategy members namespacePath st
  | .enumDecl _ n members, namespacePath, st =>
    let values := members.map (fun m => m.value)
    if !values.isEmpty then
      let st1 := registerEnum n values namespacePath st
      if (mapGet st1.enumRegistry n).isSome then st1
      else { st1 with enumRegistry := mapSet st1.enumRegistry n namespacePath }
    else st
  | .otherNode, _, st => st

def collectEnumsList (strategy : EnumStrategy) : NodeList → List String → St → St
  | .nil, _, st => st
  | .cons h t, p, st => collectEnumsList strategy t p (collectEnums strategy h p st)
end

/-! ## Rewrite pass (`visit`, src/index.ts lines 154-404) -/

/-- The effect of `visit` on a type node reached through the default
`ts.visitEachChild` recursion: the two type-reference branches of `visit`
(src/index.ts lines 370-401); union type nodes and other types are left
unchanged by those branches. -/
def visitTy (currentNamespacePath : List String) (st : St) : Ty → Ty
  | .refQual parts =>
    match mapGet st.enumsByPath (getFullPathFromQualifiedName parts) with
    | some e =>
      if !arraysEqual e.namespacePath currentNamespacePath &&
          !e.namespacePath.isEmpty then
        .refQual (e.namespacePath ++ [e.pascalCaseName])
      else .refIdent e.pascalCaseName
    | none => .refQual parts
  | .refIdent t =>
    match mapGet st.enumRegistry t with
    | some ns =>
      if !arraysEqual ns currentNamespacePath then
        if ns.isEmpty then .refIdent t else .refQual (ns ++ [t])
      else .refIdent t
    | none => .refIdent t
  | ty => ty

/-- The `for (const [_, enumInfo] of enumsByPath.entries())` emission loop
at the top of the module branch of `visit` (lines 164-203).  `entries` is
the (unchanging) `enumsByPath` list; the loop threads `processedEnums` and
`enumRegistry` updates. -/
def emitNamespaceEnums (opts : EnumPluginOptions) :
    List (String × EnumInfo) → List String → St → NodeList × St
  | [], _, st => (.nil, st)
  | (_, e) :: rest, newPath, st =>
    if arraysEqual e.namespacePath newPath &&
        !(st.processedEnums.contains e.fullPath) then
      let st1 := { st with
        processedEnums := setAdd st.processedEnums e.fullPath,
        enumRegistry := mapSet st.enumRegistry e.pascalCaseName e.namespacePath }
      let decl := Node.enumDecl opts.constEnums e.pascalCaseName
        (e.values.map (mkEnumMember opts.consistentEnumCasing))
      let (ds, st2) := emitNamespaceEnums opts rest newPath st1
      (.cons decl ds, st2)
    else emitNamespaceEnums opts rest newPath st

mutual
/-- The function `visit` from src/index.ts (lines 154-404), threading the mutable
module-level state. -/
def visit (opts : EnumPluginOptions) (strategy : EnumStrategy) :
    Node → List String → St → Node × St
  | .module n body, currentNamespacePath, st =>
    let newPath := currentNamespacePath ++ [n]
    let (enumsToAdd, st1) := emitNamespaceEnums opts st.enumsByPath newPath st
    let (stmts, st2) := visitModuleStatements opts strategy body newPath st1
    (.module n (nlAppend enumsToAdd stmts), st2)
  | .typeAlias n ty, currentNamespacePath, st =>
    match ty with
    | .strUnion vs =>
      if !vs.isEmpty &&
          (strategy == .all || isSchemaDefinedEnum st.schemaDefinedEnums n vs) then
        let fullPath := String.intercalate "." (currentNamespacePath ++ [n])
        match mapGet st.enumsByPath fullPath with
        | some e =>
          if !(st.processedEnums.contains fullPath) then
            let st1 := { st with
              processedEnums := setAdd st.processedEnums fullPath,
              enumRegistry :=
                mapSet st.enumRegistry e.pascalCaseName e.namespacePath }
            (.enumDecl opts.constEnums e.pascalCaseName
              (e.values.map (mkEnumMember opts.consistentEnumCasing)), st1)
          else (.typeAlias n (visitTy currentNamespacePath st ty), st)
        | none => (.typeAlias n (visitTy currentNamespacePath st ty), st)
      else (.typeAlias n (visitTy currentNamespacePath st ty), st)
    | _ => (.typeAlias n (visitTy currentNamespacePath st ty), st)
  | .propSig n ty, currentNamespacePath, st =>
    match ty with
    | .strUnion vs =>
      if !vs.isEmpty then
        match mapGet st.enumsByValues (jsSort vs) with
        | some e =>
          if !arraysEqual e.namespacePath currentNamespacePath &&
              !e.namespacePath.isEmpty then
            (.propSig n (.refQual (e.namespacePath ++ [e.pascalCaseName])), st)
          else (.propSig n (.refIdent e.pascalCaseName), st)
        | none => (.propSig n (visitTy currentNamespacePath st ty), st)
      else (.propSig n (visitTy currentNamespacePath st ty), st)
    | .refQual parts =>
      match mapGet st.enumsByPath (getFullPathFromQualifiedName parts) with
      | some e =>
        if !arraysEqual e.namespacePath currentNamespacePath &&
            !e.namespacePath.isEmpty then
          (.propSig n (.refQual (e.namespacePath ++ [e.pascalCaseName])), st)
        else (.propSig n (.refIdent e.pascalCaseName), st)
      | none => (.propSig n (visitTy currentNamespacePath st ty), st)
    | _ => (.propSig n (visitTy currentNamespacePath st ty), st)
  | .iface n members, currentNamespacePath, st =>
    let (ms, st1) := visitList opts strategy members currentNamespacePath st
    (.iface n ms, st1)
  | .enumDecl c n members, _, st => (.enumDecl c n members, st)
  | .otherNode, _, st => (.otherNode, st)

/-- Default `ts.visitEachChild` sequencing over sibling nodes. -/
def visitList (opts : EnumPluginOptions) (strategy : EnumStrategy) :
    NodeList → List String → St → NodeList × St
  | .nil, _, st => (.nil, st)
  | .cons h t, p, st =>
    let (h1, st1) := visit opts strategy h p st
    let (t1, st2) := visitList opts strategy t p st1
    (.cons h1 t1, st2)

/-- The statement loop of the module branch of `visit` (lines 206-218):
each statement is visited with the extended path, and a resulting type
alias whose full path is a registered enum path is dropped. -/
def visitModuleStatements (opts : EnumPluginOptions) (strategy : EnumStrategy) :
    NodeList → List String → St → NodeList × St
  | .nil, _, st => (.nil, st)
  | .cons stmt rest, newPath, st =>
    let (t, st1) := visit opts strategy stmt newPath st
    let (ts, st2) := visitModuleStatements opts strategy rest newPath st1
    match t with
    | .typeAlias an _ =>
      if (mapGet st1.enumsByPath
          (String.intercalate "." (newPath ++ [an]))).isSome then (ts, st2)
      else (.cons t ts, st2)
    | _ => (.cons t ts, st2)
end

/-! ## Reconciliation pass (`finalPass`, src/index.ts lines 407-475) -/

mutual
/-- The `finalPass` visitor: rewrites property signatures whose type is a
bare identifier reference to a registered enum, qualifying the reference
unless the reference site's namespace path matches (`arraysEqual`) the
enum's namespace path or both paths are nonempty and share their first
component.  All other nodes pass through with only their children
visited. -/
def finalPass (reg : List (String × List String)) :
    Node → List String → Node
  | .module n body, path => .module n (finalPassList reg body (path ++ [n]))
  | .iface n members, path => .iface n (finalPassList reg members path)
  | .propSig n (.refIdent t), path =>
    match mapGet reg t with
    | some enumNamespacePath =>
      if arraysEqual enumNamespacePath path ||
          (!path.isEmpty && !enumNamespacePath.isEmpty &&
            path.head? == enumNamespacePath.head?) then
        .propSig n (.refIdent t)
      else if enumNamespacePath.isEmpty then .propSig n (.refIdent t)
      else .propSig n (.refQual (enumNamespacePath ++ [t]))
    | none => .propSig n (.refIdent t)
  | node, _ => node

def finalPassList (reg : List (String × List String)) :
    NodeList → List String → NodeList
  | .nil, _ => .nil
  | .cons h t, path => .cons (finalPass reg h path) (finalPassList reg t path)
end

/-! ## The whole transformation (`postProcess` transformer, lines 80-485) -/

/-- One run of the returned transformer on one source file: collect, then
rewrite, then the final pass (which reads the `enumRegistry` as left by
the rewrite pass).  `st0` is the module-level state as `preProcess` and
the schema extractor left it. -/
def runTransform (opts : EnumPluginOptions) (st0 : St) (doc : NodeList) :
    NodeList :=
  let enumStrategy := opts.enumStrategy.getD .schema
  let st1 := collectEnumsList enumStrategy doc [] st0
  let p := visitList opts enumStrategy doc [] st1
  finalPassList p.2.enumRegistry p.1 []

/-! ## Inputs used by the concrete claims -/

/-- A schema document defining a single string enum
`components.schemas.Status`. -/
def statusSchema : Json :=
  .obj (.cons "components"
    (.obj (.cons "schemas"
      (.obj (.cons "Status"
        (.obj (.cons "type" (.str "string")
          (.cons "enum" (.arr (.cons (.str "active")
            (.cons (.str "inactive") (.cons (.str "pending") .nil))))
          .nil)))
        .nil))
      .nil))
    .nil)

/-- A document with a schema-defined union `Status` and a non-schema
union `Priority`. -/
def strategyDoc : NodeList := nlOf
  [.typeAlias "Status" (.strUnion ["active", "inactive", "pending"]),
   .typeAlias "Priority" (.strUnion ["low", "medium", "high"])]

/-- Two sibling namespaces each declaring a type alias `Status` with a
different value set, plus an interface property using that union. -/
def siblingStatusDoc : NodeList := nlOf
  [.module "ServiceA" (nlOf
    [.typeAlias "Status" (.strUnion ["active", "inactive"]),
     .iface "A" (nlOf [.propSig "status" (.strUnion ["active", "inactive"])])]),
   .module "ServiceB" (nlOf
    [.typeAlias "Status" (.strUnion ["archived", "deleted"]),
     .iface "B" (nlOf [.propSig "status" (.strUnion ["archived", "deleted"])])])]

/-- The repository snapshot input (test fixture): a top-level
`ContentType` union alias and a `Components.Schemas.ApiRequest` interface
whose `contentType` property repeats the union inline. -/
def contentTypeDoc : NodeList := nlOf
  [.typeAlias "ContentType"
    (.strUnion ["application/json", "text/plain", "application/xml"]),
   .module "Components" (nlOf
    [.module "Schemas" (nlOf
      [.iface "ApiRequest" (nlOf
        [.propSig "contentType"
          (.strUnion ["application/json", "text/plain", "application/xml"]),
         .propSig "body" .otherTy])])])]

/-! ## Predicates for the emission claims -/

/-- The list is sorted in the JS default string order (`strLe`). -/
def sortedValues (l : List String) : Prop :=
  l.Pairwise (fun a b => strLe a b = true)

mutual
/-- The tree contains no enum declaration. -/
def noEnumDecl : Node → Bool
  | .enumDecl _ _ _ => false
  | .module _ body => noEnumDeclList body
  | .iface _ members => noEnumDeclList members
  | _ => true

def noEnumDeclList : NodeList → Bool
  | .nil => true
  | .cons h t => noEnumDecl h && noEnumDeclList t
end

mutual
/-- Every enum declaration in the tree carries the `const` modifier
exactly when `b` is `true`. -/
def constFlagOk (b : Bool) : Node → Prop
  | .enumDecl c _ _ => c = b
  | .module _ body => constFlagOkList b body
  | .iface _ members => constFlagOkList b members
  | _ => True

def constFlagOkList (b : Bool) : NodeList → Prop
  | .nil => True
  | .cons h t => constFlagOk b h ∧ constFlagOkList b t
end

mutual
/-- Every enum declaration in the tree lists its members in the order of
a sorted raw value list, each member built by the Casing Normalizer. -/
def membersSortedOk (cas : Option EnumCasing) : Node → Prop
  | .enumDecl _ _ ms =>
    ∃ vs, sortedValues vs ∧ ms = vs.map (mkEnumMember cas)
  | .module _ body => membersSortedOkList cas body
  | .iface _ members => membersSortedOkList cas members
  | _ => True

def membersSortedOkList (cas : Option EnumCasing) : NodeList → Prop
  | .nil => True
  | .cons h t => membersSortedOk cas h ∧ membersSortedOkList cas t
end

mutual
/-- Every enum declaration in the tree has the shape produced by the
emission sites of `visit`: const flag equal to `opts.constEnums` and
members mapped by the Casing Normalizer over a sorted raw value list. -/
def emittedEnumOk (opts : EnumPluginOptions) : Node → Prop
  | .enumDecl c _ ms =>
    c = opts.constEnums ∧
    ∃ vs, sortedValues vs ∧ ms = vs.map (mkEnumMember opts.consistentEnumCasing)
  | .module _ body => emittedEnumOkList opts body
  | .iface _ members => emittedEnumOkList opts members
  | _ => True

def emittedEnumOkList (opts : EnumPluginOptions) : NodeList → Prop
  | .nil => True
  | .cons h t => emittedEnumOk opts h ∧ emittedEnumOkList opts t
end

/-- Every identity stored in the value-set index or the path index has a
sorted value list (`registerEnum` establishes this by sorting in place). -/
def stSorted (st : St) : Prop :=
  (∀ kv ∈ st.enumsByValues, sortedValues kv.2.values) ∧
  (∀ kv ∈ st.enumsByPath, sortedValues kv.2.values)

end UseEnums

namespace UseEnums

/-! ## Helper lemmas -/

theorem mapGet_mapSet_self {α β : Type} [DecidableEq α]
    (m : List (α × β)) (k : α) (v : β) :
    mapGet (mapSet m k v) k = some v := by
  induction m with
  | nil => simp [mapSet, mapGet]
  | cons kv rest ih =>
    obtain ⟨k1, v1⟩ := kv
    by_cases h : k1 = k
    · simp [mapSet, h, mapGet]
    · simp [mapSet, h, mapGet, ih]

theorem mapSet_length_of_get_none {α β : Type} [DecidableEq α]
    (m : List (α × β)) (k : α) (v : β) (h : mapGet m k = none) :
    (mapSet m k v).length = m.length + 1 := by
  induction m with
  | nil => simp [mapSet]
  | cons kv rest ih =>
    obtain ⟨k1, v1⟩ := kv
    by_cases hk : k1 = k
    · simp [mapGet, hk] at h
    · simp [mapGet, hk] at h
      simp [mapSet, hk, ih h]

theorem quoteStr_data (v : String) : (quoteStr v).data = '"' :: (v.data ++ ['"']) := by
  cases v
  rfl

theorem quoteStr_ne (v : String) : quoteStr v ≠ v := by
  intro h
  have hlen : (quoteStr v).data.length = v.data.length := by rw [h]
  rw [quoteStr_data] at hlen
  simp at hlen
  omega

/-- Character-level stability of the `upper` normalization. -/
theorem upRepl_char_idem (c : Char) :
    upChar (replChar (upChar (replChar c))) = upChar (replChar c) := by
  by_cases h : wordChar c = true
  · have hmem : c ∈ (lowerChars ++ upperChars ++ digitChars ++ ['_']) := by
      simpa [wordChar, List.contains] using h
    have hall : (lowerChars ++ upperChars ++ digitChars ++ ['_']).all
        (fun d => wordChar (upChar d) && (upChar (upChar d) == upChar d)) = true := by
      decide
    rw [List.all_eq_true] at hall
    have hc := hall c hmem
    simp only [Bool.and_eq_true, beq_iff_eq] at hc
    have h1 : replChar c = c := by rw [replChar, if_pos h]
    have h2 : replChar (upChar c) = upChar c := by rw [replChar, if_pos hc.1]
    rw [h1, h2, hc.2]
  · have h1 : replChar c = '_' := by rw [replChar, if_neg h]
    rw [h1]
    decide

/-- Character-level stability of the `lower` normalization. -/
theorem lowRepl_char_idem (c : Char) :
    lowChar (replChar (lowChar (replChar c))) = lowChar (replChar c) := by
  by_cases h : wordChar c = true
  · have hmem : c ∈ (lowerChars ++ upperChars ++ digitChars ++ ['_']) := by
      simpa [wordChar, List.contains] using h
    have hall : (lowerChars ++ upperChars ++ digitChars ++ ['_']).all
        (fun d => wordChar (lowChar d) && (lowChar (lowChar d) == lowChar d)) = true := by
      decide
    rw [List.all_eq_true] at hall
    have hc := hall c hmem
    simp only [Bool.and_eq_true, beq_iff_eq] at hc
    have h1 : replChar c = c := by rw [replChar, if_pos h]
    have h2 : replChar (lowChar c) = lowChar c := by rw [replChar, if_pos hc.1]
    rw [h1, h2, hc.2]
  · have h1 : replChar c = '_' := by rw [replChar, if_neg h]
    rw [h1]
    decide

theorem upRepl_list_idem (l : List Char) :
    (((l.map replChar).map upChar).map replChar).map upChar =
      (l.map replChar).map upChar := by
  induction l with
  | nil => rfl
  | cons c t ih =>
    simp only [List.map_cons]
    exact congrArg₂ List.cons (upRepl_char_idem c) ih

theorem lowRepl_list_idem (l : List Char) :
    (((l.map replChar).map lowChar).map replChar).map lowChar =
      (l.map replChar).map lowChar := by
  induction l with
  | nil => rfl
  | cons c t ih =>
    simp only [List.map_cons]
    exact congrArg₂ List.cons (lowRepl_char_idem c) ih

/-! ## Order lemmas for the JS string sort -/

theorem lexLe_cons_iff (a b : Char) (as bs : List Char) :
    lexLe (a :: as) (b :: bs) = true ↔
      a.toNat < b.toNat ∨ (a.toNat = b.toNat ∧ lexLe as bs = true) := by
  rw [lexLe]
  by_cases h1 : a.toNat < b.toNat
  · simp [h1]
  · by_cases h2 : b.toNat < a.toNat
    · rw [if_neg h1, if_pos h2]
      constructor
      · intro hf
        cases hf
      · intro hor
        exfalso
        rcases hor with h | ⟨he, -⟩ <;> omega
    · have he : a.toNat = b.toNat := by omega
      simp [h1, h2, he]

theorem lexLe_total : ∀ a b : List Char, lexLe a b = true ∨ lexLe b a = true
  | [], _ => Or.inl rfl
  | _ :: _, [] => Or.inr rfl
  | a :: as, b :: bs => by
    rw [lexLe_cons_iff, lexLe_cons_iff]
    rcases Nat.lt_trichotomy a.toNat b.toNat with h | h | h
    · exact Or.inl (Or.inl h)
    · rcases lexLe_total as bs with hr | hr
      · exact Or.inl (Or.inr ⟨h, hr⟩)
      · exact Or.inr (Or.inr ⟨h.symm, hr⟩)
    · exact Or.inr (Or.inl h)

theorem lexLe_trans : ∀ a b c : List Char,
    lexLe a b = true → lexLe b c = true → lexLe a c = true
  | [], _, _, _, _ => rfl
  | _ :: _, [], _, hab, _ => by cases hab
  | _ :: _, _ :: _, [], _, hbc => by cases hbc
  | a :: as, b :: bs, c :: cs, hab, hbc => by
    rw [lexLe_cons_iff] at hab hbc ⊢
    rcases hab with hab | ⟨hab, hab2⟩ <;> rcases hbc with hbc | ⟨hbc, hbc2⟩
    · exact Or.inl (by omega)
    · exact Or.inl (by omega)
    · exact Or.inl (by omega)
    · exact Or.inr ⟨by omega, lexLe_trans as bs cs hab2 hbc2⟩

theorem strLe_total (a b : String) : strLe a b = true ∨ strLe b a = true :=
  lexLe_total a.data b.data

theorem strLe_trans {a b c : String} (hab : strLe a b = true)
    (hbc : strLe b c = true) : strLe a c = true :=
  lexLe_trans a.data b.data c.data hab hbc

theorem mem_insSorted (x z : String) :
    ∀ l : List String, z ∈ insSorted x l ↔ z = x ∨ z ∈ l := by
  intro l
  induction l with
  | nil => simp [insSorted]
  | cons y ys ih =>
    rw [insSorted]
    by_cases h : strLe x y = true
    · rw [if_pos h]
      simp only [List.mem_cons]
    · rw [if_neg h]
      simp only [List.mem_cons, ih]
      tauto

theorem pairwise_insSorted (x : String) (l : List String)
    (h : l.Pairwise (fun a b => strLe a b = true)) :
    (insSorted x l).Pairwise (fun a b => strLe a b = true) := by
  induction l with
  | nil => simp [insSorted]
  | cons y ys ih =>
    rw [insSorted]
    rw [List.pairwise_cons] at h
    by_cases hxy : strLe x y = true
    · rw [if_pos hxy]
      rw [List.pairwise_cons]
      refine ⟨?_, List.pairwise_cons.mpr h⟩
      intro z hz
      rcases List.mem_cons.mp hz with rfl | hz
      · exact hxy
      · exact strLe_trans hxy (h.1 z hz)
    · rw [if_neg hxy]
      have hyx : strLe y x = true := (strLe_total x y).resolve_left hxy
      rw [List.pairwise_cons]
      refine ⟨?_, ih h.2⟩
      intro z hz
      rcases (mem_insSorted x z ys).mp hz with rfl | hz
      · exact hyx
      · exact h.1 z hz

theorem sortedValues_jsSort (l : List String) : sortedValues (jsSort l) := by
  rw [sortedValues, jsSort]
  induction l with
  | nil => simp
  | cons x xs ih => exact pairwise_insSorted x _ ih

/-! ## Map membership lemmas -/

theorem mapGet_mem {α β : Type} [DecidableEq α] :
    ∀ {m : List (α × β)} {k : α} {v : β}, mapGet m k = some v → (k, v) ∈ m := by
  intro m
  induction m with
  | nil => intro k v h; cases h
  | cons kv rest ih =>
    intro k v h
    obtain ⟨k1, v1⟩ := kv
    rw [mapGet] at h
    by_cases hk : k1 = k
    · rw [if_pos hk] at h
      cases h
      subst hk
      exact List.mem_cons_self _ _
    · rw [if_neg hk] at h
      exact List.mem_cons_of_mem _ (ih h)

theorem mapSet_mem {α β : Type} [DecidableEq α] :
    ∀ {m : List (α × β)} {k : α} {v : β} {kv : α × β},
      kv ∈ mapSet m k v → kv = (k, v) ∨ kv ∈ m := by
  intro m
  induction m with
  | nil =>
    intro k v kv h
    simp [mapSet] at h
    exact Or.inl h
  | cons kv1 rest ih =>
    intro k v kv h
    obtain ⟨k1, v1⟩ := kv1
    rw [mapSet] at h
    by_cases hk : k1 = k
    · rw [if_pos hk] at h
      rcases List.mem_cons.mp h with rfl | hmem
      · exact Or.inl rfl
      · exact Or.inr (List.mem_cons_of_mem _ hmem)
    · rw [if_neg hk] at h
      rcases List.mem_cons.mp h with rfl | hmem
      · exact Or.inr (List.mem_cons_self _ _)
      · rcases ih hmem with h1 | h1
        · exact Or.inl h1
        · exact Or.inr (List.mem_cons_of_mem _ h1)

/-- The function `registerEnum` keeps every stored identity's value list sorted. -/
theorem registerEnum_stSorted (n : String) (vs p : List String) (st : St)
    (h : stSorted st) : stSorted (registerEnum n vs p st) := by
  rw [registerEnum]
  cases hg : mapGet st.enumsByValues (jsSort vs) with
  | some e =>
    have he : sortedValues e.values := h.1 _ (mapGet_mem hg)
    refine ⟨h.1, ?_⟩
    intro kv hkv
    rcases mapSet_mem hkv with rfl | hkv
    · exact he
    · exact h.2 _ hkv
  | none =>
    constructor
    · intro kv hkv
      rcases mapSet_mem hkv with rfl | hkv
      · exact sortedValues_jsSort vs
      · exact h.1 _ hkv
    · intro kv hkv
      rcases mapSet_mem hkv with rfl | hkv
      · exact sortedValues_jsSort vs
      · exact h.2 _ hkv

/-! ## Emission shape lemmas -/

theorem emittedEnumOk_typeAlias (opts : EnumPluginOptions) (n : String)
    (ty : Ty) : emittedEnumOk opts (.typeAlias n ty) := by
  simp [emittedEnumOk]

theorem emittedEnumOk_propSig (opts : EnumPluginOptions) (n : String)
    (ty : Ty) : emittedEnumOk opts (.propSig n ty) := by
  simp [emittedEnumOk]

theorem emittedEnumOk_enumDecl (opts : EnumPluginOptions) (nm : String)
    (vs : List String) (hs : sortedValues vs) :
    emittedEnumOk opts (.enumDecl opts.constEnums nm
      (vs.map (mkEnumMember opts.consistentEnumCasing))) :=
  ⟨rfl, vs, hs, rfl⟩

theorem emittedEnumOkList_nlAppend (opts : EnumPluginOptions) :
    ∀ {a b : NodeList}, emittedEnumOkList opts a → emittedEnumOkList opts b →
      emittedEnumOkList opts (nlAppend a b)
  | .nil, b, _, hb => hb
  | .cons h t, b, ha, hb => by
    rw [emittedEnumOkList] at ha
    rw [nlAppend, emittedEnumOkList]
    exact ⟨ha.1, emittedEnumOkList_nlAppend opts ha.2 hb⟩

/-- The emission loop at the top of a module body produces only enum
declarations of the emitted shape, and leaves the value/path indexes
untouched. -/
theorem emitNamespaceEnums_ok (opts : EnumPluginOptions)
    (entries : List (String × EnumInfo)) (p : List String) :
    ∀ st : St, (∀ kv ∈ entries, sortedValues kv.2.values) → stSorted st →
      emittedEnumOkList opts (emitNamespaceEnums opts entries p st).1 ∧
      stSorted (emitNamespaceEnums opts entries p st).2 := by
  induction entries with
  | nil =>
    intro st _ hst
    rw [emitNamespaceEnums]
    exact ⟨trivial, hst⟩
  | cons kv rest ih =>
    intro st hent hst
    obtain ⟨k, e⟩ := kv
    rw [emitNamespaceEnums]
    by_cases hc : (arraysEqual e.namespacePath p &&
        !(st.processedEnums.contains e.fullPath)) = true
    · rw [if_pos hc]
      have H := ih { st with
          processedEnums := setAdd st.processedEnums e.fullPath,
          enumRegistry := mapSet st.enumRegistry e.pascalCaseName e.namespacePath }
        (fun kv hkv => hent kv (List.mem_cons_of_mem _ hkv)) hst
      rcases hrec : emitNamespaceEnums opts rest p { st with
          processedEnums := setAdd st.processedEnums e.fullPath,
          enumRegistry := mapSet st.enumRegistry e.pascalCaseName e.namespacePath }
        with ⟨ds, st2⟩
      rw [hrec] at H
      simp only [hrec]
      refine ⟨⟨?_, H.1⟩, H.2⟩
      exact emittedEnumOk_enumDecl opts _ e.values
        (hent (k, e) (List.mem_cons_self _ _))
    · rw [if_neg hc]
      exact ih st (fun kv hkv => hent kv (List.mem_cons_of_mem _ hkv)) hst

/-! ## The rewrite pass emits only well-shaped enums -/

mutual
theorem visit_ok (opts : EnumPluginOptions) (strat : EnumStrategy) :
    ∀ (node : Node) (p : List String) (st : St), stSorted st →
      noEnumDecl node = true →
      emittedEnumOk opts (visit opts strat node p st).1 ∧
      stSorted (visit opts strat node p st).2
  | .module n body, p, st, hst, hno => by
    rw [visit]
    rcases hemit : emitNamespaceEnums opts st.enumsByPath (p ++ [n]) st
      with ⟨adds, st1⟩
    have He := emitNamespaceEnums_ok opts st.enumsByPath (p ++ [n]) st hst.2 hst
    rw [hemit] at He
    rcases hstmts : visitModuleStatements opts strat body (p ++ [n]) st1
      with ⟨stmts, st2⟩
    have Hs := visitModuleStatements_ok opts strat body (p ++ [n]) st1 He.2
      (by simpa [noEnumDecl] using hno)
    rw [hstmts] at Hs
    simp only [hemit, hstmts]
    exact ⟨emittedEnumOkList_nlAppend opts He.1 Hs.1, Hs.2⟩
  | .typeAlias n ty, p, st, hst, _ => by
    cases ty with
    | strUnion vs =>
      simp only [visit]
      split
      · split
        next e heq =>
          split
          · exact ⟨emittedEnumOk_enumDecl opts _ e.values
              (hst.2 _ (mapGet_mem heq)), hst⟩
          · exact ⟨emittedEnumOk_typeAlias _ _ _, hst⟩
        next heq => exact ⟨emittedEnumOk_typeAlias _ _ _, hst⟩
      · exact ⟨emittedEnumOk_typeAlias _ _ _, hst⟩
    | refIdent s => exact ⟨emittedEnumOk_typeAlias _ _ _, hst⟩
    | refQual parts => exact ⟨emittedEnumOk_typeAlias _ _ _, hst⟩
    | otherTy => exact ⟨emittedEnumOk_typeAlias _ _ _, hst⟩
  | .propSig n ty, p, st, hst, _ => by
    cases ty <;> simp only [visit] <;> (repeat' split) <;>
      exact ⟨emittedEnumOk_propSig _ _ _, hst⟩
  | .iface n members, p, st, hst, hno => by
    rw [visit]
    rcases hvl : visitList opts strat members p st with ⟨ms, st1⟩
    have H := visitList_ok opts strat members p st hst
      (by simpa [noEnumDecl] using hno)
    rw [hvl] at H
    simp only [hvl]
    exact ⟨H.1, H.2⟩
  | .enumDecl c nm ms, p, st, hst, hno => by
    simp [noEnumDecl] at hno
  | .otherNode, p, st, hst, _ => by
    rw [visit]
    exact ⟨trivial, hst⟩

theorem visitList_ok (opts : EnumPluginOptions) (strat : EnumStrategy) :
    ∀ (l : NodeList) (p : List String) (st : St), stSorted st →
      noEnumDeclList l = true →
      emittedEnumOkList opts (visitList opts strat l p st).1 ∧
      stSorted (visitList opts strat l p st).2
  | .nil, p, st, hst, _ => by
    rw [visitList]
    exact ⟨trivial, hst⟩
  | .cons h t, p, st, hst, hno => by
    rw [visitList]
    have hno2 : noEnumDecl h = true ∧ noEnumDeclList t = true := by
      simpa [noEnumDeclList, Bool.and_eq_true] using hno
    rcases hv : visit opts strat h p st with ⟨h1, st1⟩
    have H1 := visit_ok opts strat h p st hst hno2.1
    rw [hv] at H1
    rcases hvt : visitList opts strat t p st1 with ⟨t1, st2⟩
    have H2 := visitList_ok opts strat t p st1 H1.2 hno2.2
    rw [hvt] at H2
    simp only [hv, hvt]
    exact ⟨⟨H1.1, H2.1⟩, H2.2⟩

theorem visitModuleStatements_ok (opts : EnumPluginOptions)
    (strat : EnumStrategy) :
    ∀ (l : NodeList) (p : List String) (st : St), stSorted st →
      noEnumDeclList l = true →
      emittedEnumOkList opts (visitModuleStatements opts strat l p st).1 ∧
      stSorted (visitModuleStatements opts strat l p st).2
  | .nil, p, st, hst, _ => by
    rw [visitModuleStatements]
    exact ⟨trivial, hst⟩
  | .cons stmt rest, p, st, hst, hno => by
    rw [visitModuleStatements]
    have hno2 : noEnumDecl stmt = true ∧ noEnumDeclList rest = true := by
      simpa [noEnumDeclList, Bool.and_eq_true] using hno
    rcases hv : visit opts strat stmt p st with ⟨t, st1⟩
    have H1 := visit_ok opts strat stmt p st hst hno2.1
    rw [hv] at H1
    rcases hvr : visitModuleStatements opts strat rest p st1 with ⟨ts, st2⟩
    have H2 := visitModuleStatements_ok opts strat rest p st1 H1.2 hno2.2
    rw [hvr] at H2
    simp only [hv, hvr]
    split
    · split
      · exact ⟨H2.1, H2.2⟩
      · exact ⟨⟨H1.1, H2.1⟩, H2.2⟩
    · exact ⟨⟨H1.1, H2.1⟩, H2.2⟩
end

/-! ## The final pass preserves emitted enum shapes -/

mutual
theorem finalPass_emittedOk (opts : EnumPluginOptions)
    (reg : List (String × List String)) :
    ∀ (node : Node) (p : List String), emittedEnumOk opts node →
      emittedEnumOk opts (finalPass reg node p)
  | .module n body, p, h => by
    rw [finalPass]
    exact finalPassList_emittedOk opts reg body (p ++ [n]) h
  | .iface n members, p, h => by
    rw [finalPass]
    exact finalPassList_emittedOk opts reg members p h
  | .propSig n ty, p, _ => by
    cases ty with
    | refIdent t =>
      rw [finalPass]
      (repeat' split) <;> exact emittedEnumOk_propSig _ _ _
    | strUnion vs => exact emittedEnumOk_propSig _ _ _
    | refQual parts => exact emittedEnumOk_propSig _ _ _
    | otherTy => exact emittedEnumOk_propSig _ _ _
  | .typeAlias n ty, p, h => h
  | .enumDecl c nm ms, p, h => h
  | .otherNode, p, h => h

theorem finalPassList_emittedOk (opts : EnumPluginOptions)
    (reg : List (String × List String)) :
    ∀ (l : NodeList) (p : List String), emittedEnumOkList opts l →
      emittedEnumOkList opts (finalPassList reg l p)
  | .nil, p, h => h
  | .cons hd tl, p, h => by
    rw [emittedEnumOkList] at h
    rw [finalPassList, emittedEnumOkList]
    exact ⟨finalPass_emittedOk opts reg hd p h.1,
           finalPassList_emittedOk opts reg tl p h.2⟩
end

/-! ## The collection pass keeps the registry invariant -/

mutual
theorem collectEnums_stSorted (strategy : EnumStrategy) :
    ∀ (node : Node) (p : List String) (st : St), stSorted st →
      stSorted (collectEnums strategy node p st)
  | .module n body, p, st, h => by
    rw [collectEnums]
    exact collectEnumsList_stSorted strategy body p _
      (collectEnumsList_stSorted strategy body (p ++ [n]) st h)
  | .typeAlias n ty, p, st, h => by
    cases ty with
    | strUnion vs =>
      rw [collectEnums]
      split
      · exact registerEnum_stSorted _ _ _ _ h
      · exact h
    | refIdent s => exact h
    | refQual parts => exact h
    | otherTy => exact h
  | .propSig n ty, p, st, h => by
    cases ty with
    | strUnion vs =>
      rw [collectEnums]
      split
      · exact registerEnum_stSorted _ _ _ _ h
      · exact h
    | refIdent s => exact h
    | refQual parts => exact h
    | otherTy => exact h
  | .iface n members, p, st, h => by
    rw [collectEnums]
    exact collectEnumsList_stSorted strategy members p st h
  | .enumDecl c nm ms, p, st, h => by
    simp only [collectEnums]
    split
    · split
      · exact registerEnum_stSorted _ _ _ _ h
      · exact registerEnum_stSorted _ _ _ _ h
    · exact h
  | .otherNode, p, st, h => h

theorem collectEnumsList_stSorted (strategy : EnumStrategy) :
    ∀ (l : NodeList) (p : List String) (st : St), stSorted st →
      stSorted (collectEnumsList strategy l p st)
  | .nil, p, st, h => h
  | .cons hd tl, p, st, h => by
    rw [collectEnumsList]
    exact collectEnumsList_stSorted strategy tl p _
      (collectEnums_stSorted strategy hd p st h)
end

/-! ## Projection lemmas from the emitted shape -/

mutual
theorem emittedEnumOk_constFlag (opts : EnumPluginOptions) :
    ∀ node : Node, emittedEnumOk opts node → constFlagOk opts.constEnums node
  | .module n body, h =>
    emittedEnumOkList_constFlag opts body h
  | .iface n members, h =>
    emittedEnumOkList_constFlag opts members h
  | .enumDecl c nm ms, h => h.1
  | .typeAlias n ty, _ => trivial
  | .propSig n ty, _ => trivial
  | .otherNode, _ => trivial

theorem emittedEnumOkList_constFlag (opts : EnumPluginOptions) :
    ∀ l : NodeList, emittedEnumOkList opts l →
      constFlagOkList opts.constEnums l
  | .nil, _ => trivial
  | .cons hd tl, h =>
    ⟨emittedEnumOk_constFlag opts hd h.1,
     emittedEnumOkList_constFlag opts tl h.2⟩
end

mutual
theorem emittedEnumOk_membersSorted (opts : EnumPluginOptions) :
    ∀ node : Node, emittedEnumOk opts node →
      membersSortedOk opts.consistentEnumCasing node
  | .module n body, h =>
    emittedEnumOkList_membersSorted opts body h
  | .iface n members, h =>
    emittedEnumOkList_membersSorted opts members h
  | .enumDecl c nm ms, h => h.2
  | .typeAlias n ty, _ => trivial
  | .propSig n ty, _ => trivial
  | .otherNode, _ => trivial

theorem emittedEnumOkList_membersSorted (opts : EnumPluginOptions) :
    ∀ l : NodeList, emittedEnumOkList opts l →
      membersSortedOkList opts.consistentEnumCasing l
  | .nil, _ => trivial
  | .cons hd tl, h =>
    ⟨emittedEnumOk_membersSorted opts hd h.1,
     emittedEnumOkList_membersSorted opts tl h.2⟩
end

attribute [irreducible] constFlagOk constFlagOkList membersSortedOk
  membersSortedOkList emittedEnumOk emittedEnumOkList

/-- Validation of the embedding against the repository's snapshot pair:
with strategy `all` and the `value` casing policy, the `ContentType`
document is rewritten to the snapshot's expected output — a top-level
enum with string-literal keys in sorted value order, the alias dropped
in place, and the inline property union replaced by a bare reference. -/
theorem runTransform_contentType_snapshot :
    runTransform
        { consistentEnumCasing := some .value, enumStrategy := some .all }
        {} contentTypeDoc = nlOf
      [.enumDecl false "ContentType"
        [⟨true, "application/json", "application/json"⟩,
         ⟨true, "application/xml", "application/xml"⟩,
         ⟨true, "text/plain", "text/plain"⟩],
       .module "Components" (nlOf
        [.module "Schemas" (nlOf
          [.iface "ApiRequest" (nlOf
            [.propSig "contentType" (.refIdent "ContentType"),
             .propSig "body" .otherTy])])])] := by decide

/-! ## Claims -/

/-- Claim C1, counterexample.  The claim quantifies over unions "whose value
sets are equal as sets".  The dedup key of `registerEnum` is the JSON
encoding of the *sorted value list*, which keeps duplicate members: the
promotable unions `"a" | "a" | "b"` and `"a" | "b"` have equal value sets
(equal deduplicated value lists) but produce two distinct `EnumIdentity`
entries. -/
theorem claim1_counterexample :
    (["a", "a", "b"] : List String).dedup = (["a", "b"] : List String).dedup ∧
    (registerEnum "B" ["a", "b"] []
        (registerEnum "A" ["a", "a", "b"] [] {})).enumsByValues.length = 2 := by
  constructor
  · decide
  · decide

/-- Claim C1, amended.  For any two registrations whose value lists are
equal as multisets (equivalently: equal after sorting), `registerEnum`
creates exactly one `EnumIdentity`: the first registration (on a fresh
value set) creates it, with the first registration's source name (as
display name) and namespace path winning ownership, and the second
registration only records an additional full-path mapping to that same
identity, leaving the value-set index, the simple-name registry and the
processed set unchanged. -/
theorem claim1_amended (st : St) (n₁ n₂ : String) (v₁ v₂ p₁ p₂ : List String)
    (hsort : jsSort v₁ = jsSort v₂)
    (hnew : mapGet st.enumsByValues (jsSort v₁) = none) :
    (registerEnum n₁ v₁ p₁ st).enumsByValues.length =
      st.enumsByValues.length + 1 ∧
    mapGet (registerEnum n₁ v₁ p₁ st).enumsByValues (jsSort v₂) =
      some { name := n₁, values := jsSort v₁, namespacePath := p₁,
             pascalCaseName := toPascalCase n₁,
             fullPath := String.intercalate "." (p₁ ++ [n₁]) } ∧
    (registerEnum n₂ v₂ p₂ (registerEnum n₁ v₁ p₁ st)).enumsByValues =
      (registerEnum n₁ v₁ p₁ st).enumsByValues ∧
    (registerEnum n₂ v₂ p₂ (registerEnum n₁ v₁ p₁ st)).enumRegistry =
      (registerEnum n₁ v₁ p₁ st).enumRegistry ∧
    (registerEnum n₂ v₂ p₂ (registerEnum n₁ v₁ p₁ st)).processedEnums =
      (registerEnum n₁ v₁ p₁ st).processedEnums ∧
    (registerEnum n₂ v₂ p₂ (registerEnum n₁ v₁ p₁ st)).enumsByPath =
      mapSet (registerEnum n₁ v₁ p₁ st).enumsByPath
        (String.intercalate "." (p₂ ++ [n₂]))
        { name := n₁, values := jsSort v₁, namespacePath := p₁,
          pascalCaseName := toPascalCase n₁,
          fullPath := String.intercalate "." (p₁ ++ [n₁]) } := by
  have e1 : registerEnum n₁ v₁ p₁ st =
      { st with
        enumsByValues := mapSet st.enumsByValues (jsSort v₁)
          { name := n₁, values := jsSort v₁, namespacePath := p₁,
            pascalCaseName := toPascalCase n₁,
            fullPath := String.intercalate "." (p₁ ++ [n₁]) },
        enumsByPath := mapSet st.enumsByPath
          (String.intercalate "." (p₁ ++ [n₁]))
          { name := n₁, values := jsSort v₁, namespacePath := p₁,
            pascalCaseName := toPascalCase n₁,
            fullPath := String.intercalate "." (p₁ ++ [n₁]) },
        enumRegistry := mapSet st.enumRegistry (toPascalCase n₁) p₁ } := by
    rw [registerEnum, hnew]
  have hget : mapGet (registerEnum n₁ v₁ p₁ st).enumsByValues (jsSort v₂) =
      some { name := n₁, values := jsSort v₁, namespacePath := p₁,
             pascalCaseName := toPascalCase n₁,
             fullPath := String.intercalate "." (p₁ ++ [n₁]) } := by
    rw [e1, ← hsort]
    exact mapGet_mapSet_self _ _ _
  have e2 : registerEnum n₂ v₂ p₂ (registerEnum n₁ v₁ p₁ st) =
      { registerEnum n₁ v₁ p₁ st with
        enumsByPath := mapSet (registerEnum n₁ v₁ p₁ st).enumsByPath
          (String.intercalate "." (p₂ ++ [n₂]))
          { name := n₁, values := jsSort v₁, namespacePath := p₁,
            pascalCaseName := toPascalCase n₁,
            fullPath := String.intercalate "." (p₁ ++ [n₁]) } } := by
    rw [registerEnum, hget]
  refine ⟨?_, hget, ?_, ?_, ?_, ?_⟩
  · rw [e1]
    exact mapSet_length_of_get_none _ _ _ hnew
  · rw [e2]
  · rw [e2]
  · rw [e2]
  · rw [e2]

/-- Claim C1, witness. -/
theorem claim1_witness :
    jsSort ["b", "a"] = jsSort ["a", "b"] ∧
    mapGet (({} : St)).enumsByValues (jsSort ["b", "a"]) = none ∧
    (registerEnum "B" ["b", "a"] ["N"] {}).enumsByValues.length =
      (({} : St)).enumsByValues.length + 1 ∧
    (registerEnum "C" ["a", "b"] ["M"]
        (registerEnum "B" ["b", "a"] ["N"] {})).enumsByValues =
      (registerEnum "B" ["b", "a"] ["N"] {}).enumsByValues :=
  ⟨by decide, by decide,
   (claim1_amended {} "B" "C" ["b", "a"] ["a", "b"] ["N"] ["M"]
      (by decide) (by decide)).1,
   (claim1_amended {} "B" "C" ["b", "a"] ["a", "b"] ["N"] ["M"]
      (by decide) (by decide)).2.2.1⟩

/-- Claim C2, counterexample.  After the final pass a bare reference can
remain unqualified although the reference site's namespace path differs
from the enum's: the pass skips qualification whenever the two paths share
their first namespace component.  Here the enum `Status` is owned by
namespace path `A.Y` while the referencing property sits in `A.X`; the
final pass leaves the bare reference untouched. -/
theorem claim2_counterexample :
    (["A", "X"] : List String) ≠ ["A", "Y"] ∧
    finalPass [("Status", ["A", "Y"])]
        (.module "A" (nlOf [.module "X" (nlOf
          [.iface "I" (nlOf [.propSig "s" (.refIdent "Status")])])])) [] =
      .module "A" (nlOf [.module "X" (nlOf
        [.iface "I" (nlOf [.propSig "s" (.refIdent "Status")])])]) := by
  constructor
  · decide
  · decide

/-- Claim C2, amended.  After the reconciliation pass, a property-signature
type reference that is a bare identifier naming a registered enum is
namespace-qualified if and only if the enum's namespace path is nonempty,
does not match the reference site's namespace path under `arraysEqual`
(which compares as multisets), and the two paths do not both start with
the same first namespace component while both are nonempty; in every
other case the reference is left as the bare identifier. -/
theorem claim2_amended (reg : List (String × List String))
    (path : List String) (n t : String) (ns : List String)
    (h : mapGet reg t = some ns) :
    finalPass reg (.propSig n (.refIdent t)) path =
      (if (arraysEqual ns path ||
            (!path.isEmpty && !ns.isEmpty && path.head? == ns.head?)) ||
          ns.isEmpty
        then Node.propSig n (.refIdent t)
        else Node.propSig n (.refQual (ns ++ [t]))) ∧
    ((∃ q, finalPass reg (.propSig n (.refIdent t)) path =
        .propSig n (.refQual q)) ↔
      (ns ≠ [] ∧ arraysEqual ns path = false ∧
        (!path.isEmpty && !ns.isEmpty && path.head? == ns.head?) = false)) := by
  have e : finalPass reg (.propSig n (.refIdent t)) path =
      (if arraysEqual ns path ||
            (!path.isEmpty && !ns.isEmpty && path.head? == ns.head?) then
        Node.propSig n (.refIdent t)
      else if ns.isEmpty then Node.propSig n (.refIdent t)
      else Node.propSig n (.refQual (ns ++ [t]))) := by
    rw [finalPass, h]
  obtain ⟨b2, hb2⟩ : ∃ b,
      (!path.isEmpty && !ns.isEmpty && path.head? == ns.head?) = b := ⟨_, rfl⟩
  rw [hb2] at e
  constructor
  · rw [e, hb2]
    cases hb1 : arraysEqual ns path <;> cases b2 <;> cases hb3 : ns.isEmpty <;>
      simp [hb3]
  · rw [e, hb2]
    cases hb1 : arraysEqual ns path <;> cases b2 <;> cases hb3 : ns.isEmpty <;>
      simp [hb1, hb3] <;>
        first
        | (intro hnil
           rw [hnil] at hb3
           simp at hb3)
        | (cases ns with
            | nil => rfl
            | cons a l => simp at hb3)
        | skip

/-- Claim C2, witness (an instance where the amended rule does qualify). -/
theorem claim2_witness :
    mapGet [("Status", ["B"])] "Status" = some ["B"] ∧
    finalPass [("Status", ["B"])] (.propSig "s" (.refIdent "Status")) ["A"] =
      .propSig "s" (.refQual ["B", "Status"]) :=
  ⟨by decide, by
    have h := (claim2_amended [("Status", ["B"])] ["A"] "s" "Status" ["B"]
      (by decide)).1
    simpa using h⟩

/-- Claim C3.  Strategy gating: with the schema-defined enum set produced by
running the extractor on a schema defining only `Status`, strategy
`schema` (the default) promotes only `Status` to an enum declaration
while `Priority` survives as a type alias; strategy `all` promotes both. -/
theorem claim3_strategy_gating :
    preProcessRun [statusSchema] {} =
      { enumRegistry := [("Status", ["Components", "Schemas"])],
        schemaDefinedEnums :=
          ["status", "components.schemas.status", "schemas.status",
           "schemas.status.status", "status.status", "status.active",
           "status.inactive", "status.pending"] } ∧
    runTransform {} (preProcessRun [statusSchema] {}) strategyDoc = nlOf
      [.enumDecl false "Status"
        [⟨false, "Active", "active"⟩, ⟨false, "Inactive", "inactive"⟩,
         ⟨false, "Pending", "pending"⟩],
       .typeAlias "Priority" (.strUnion ["low", "medium", "high"])] ∧
    runTransform { enumStrategy := some .all }
        (preProcessRun [statusSchema] {}) strategyDoc = nlOf
      [.enumDecl false "Status"
        [⟨false, "Active", "active"⟩, ⟨false, "Inactive", "inactive"⟩,
         ⟨false, "Pending", "pending"⟩],
       .enumDecl false "Priority"
        [⟨false, "High", "high"⟩, ⟨false, "Low", "low"⟩,
         ⟨false, "Medium", "medium"⟩]] := by
  refine ⟨by decide, by decide, by decide⟩

/-- Claim C4, code bug.  Two sibling namespaces with same-named but
different-valued `Status` unions: the code does emit two distinct enum
declarations (the identities are not merged), but the final pass rewrites
the property reference inside `ServiceA` to the foreign `ServiceB.Status`,
because the simple-name registry maps the shared display name `Status` to
the last-registered namespace.  The claim (and spec §8 property 3)
requires each namespace's reference to resolve to its own declaration,
which would be the second document below. -/
theorem claim4_code_divergence :
    runTransform { enumStrategy := some .all } {} siblingStatusDoc = nlOf
      [.module "ServiceA" (nlOf
        [.enumDecl false "Status"
          [⟨false, "Active", "active"⟩, ⟨false, "Inactive", "inactive"⟩],
         .iface "A" (nlOf
          [.propSig "status" (.refQual ["ServiceB", "Status"])])]),
       .module "ServiceB" (nlOf
        [.enumDecl false "Status"
          [⟨false, "Archived", "archived"⟩, ⟨false, "Deleted", "deleted"⟩],
         .iface "B" (nlOf [.propSig "status" (.refIdent "Status")])])] ∧
    runTransform { enumStrategy := some .all } {} siblingStatusDoc ≠ nlOf
      [.module "ServiceA" (nlOf
        [.enumDecl false "Status"
          [⟨false, "Active", "active"⟩, ⟨false, "Inactive", "inactive"⟩],
         .iface "A" (nlOf [.propSig "status" (.refIdent "Status")])]),
       .module "ServiceB" (nlOf
        [.enumDecl false "Status"
          [⟨false, "Archived", "archived"⟩, ⟨false, "Deleted", "deleted"⟩],
         .iface "B" (nlOf [.propSig "status" (.refIdent "Status")])])] := by
  refine ⟨by decide, by decide⟩

/-- Claim C5.  The hook `preProcess` clears every piece of module-level registry
state before extracting, so the state a transformation run starts from —
and hence the entire run — is independent of whatever state a previously
processed document left behind. -/
theorem claim5_state_reset (opts : EnumPluginOptions) (schemas : List Json)
    (doc : NodeList) (prior₁ prior₂ : St) :
    clearState prior₁ = ({} : St) ∧
    preProcessRun schemas prior₁ = preProcessRun schemas prior₂ ∧
    runTransform opts (preProcessRun schemas prior₁) doc =
      runTransform opts (preProcessRun schemas prior₂) doc :=
  ⟨rfl, rfl, rfl⟩

/-- Claim C6.  The Casing Normalizer is a total function (it is a Lean
function, hence total and deterministic over every input string,
including the empty string and strings of pure punctuation), and for each
policy it returns the specified pair: `value` keeps the value unchanged
and quotes the key exactly when the value contains a character of the
invalid-character class; `upper` and `lower` replace the characters
outside `[a-zA-Z0-9_]` with underscores and case both components;
`pascal` pascal-cases both; with no policy, the key is the pascal-cased
value and the value is unchanged. -/
theorem claim6_casing_normalizer (v : String) :
    ((getEnumMember (some .value) v).enumValue = v ∧
      ((getEnumMember (some .value) v).enumKey = quoteStr v ↔
        hasInvalidChars v = true) ∧
      ((getEnumMember (some .value) v).enumKey = v ↔
        hasInvalidChars v = false)) ∧
    ((getEnumMember (some .upper) v).enumKey = upStr (replaceNonWord v) ∧
      (getEnumMember (some .upper) v).enumValue = upStr (replaceNonWord v)) ∧
    ((getEnumMember (some .lower) v).enumKey = lowStr (replaceNonWord v) ∧
      (getEnumMember (some .lower) v).enumValue = lowStr (replaceNonWord v)) ∧
    ((getEnumMember (some .pascal) v).enumKey = toPascalCase v ∧
      (getEnumMember (some .pascal) v).enumValue = toPascalCase v) ∧
    ((getEnumMember none v).enumKey = toPascalCase v ∧
      (getEnumMember none v).enumValue = v) := by
  refine ⟨⟨rfl, ?_, ?_⟩, ⟨rfl, rfl⟩, ⟨rfl, rfl⟩, ⟨rfl, rfl⟩, ⟨rfl, rfl⟩⟩
  · by_cases h : hasInvalidChars v = true
    · simp [getEnumMember, h]
    · simp only [Bool.not_eq_true] at h
      simp only [getEnumMember, h, Bool.false_eq_true, if_false, h]
      exact ⟨fun hq => absurd hq.symm (quoteStr_ne v), by simp⟩
  · by_cases h : hasInvalidChars v = true
    · simp only [getEnumMember, h, if_true]
      exact ⟨fun hq => absurd hq (quoteStr_ne v), by simp [h]⟩
    · simp only [Bool.not_eq_true] at h
      simp [getEnumMember, h]

/-- Claim C7, counterexample.  The `pascal` policy is not idempotent: on
`"a.b-c"` one application yields `"A.bC"`, a second yields `"A.bc"` (the
re-split finds no separators and lower-cases the tail past the dot). -/
theorem claim7_counterexample :
    getEnumMember (some .pascal)
        ((getEnumMember (some .pascal) "a.b-c").enumValue) ≠
      getEnumMember (some .pascal) "a.b-c" := by decide

/-- Claim C7, amended.  For the policies `value`, `upper`, `lower` and the
unspecified (default) policy, applying the Casing Normalizer to the value
component of its own output yields the same pair as applying it once;
the `pascal` policy is excluded (see the counterexample). -/
theorem claim7_amended (p : Option EnumCasing) (v : String)
    (h : p = some .value ∨ p = some .upper ∨ p = some .lower ∨ p = none) :
    getEnumMember p ((getEnumMember p v).enumValue) = getEnumMember p v := by
  rcases h with h | h | h | h <;> subst h
  · rfl
  · show getEnumMember (some .upper) (upStr (replaceNonWord v)) = _
    have hidem : upStr (replaceNonWord (upStr (replaceNonWord v))) =
        upStr (replaceNonWord v) := by
      simp only [upStr, replaceNonWord]
      exact congrArg String.mk (upRepl_list_idem v.data)
    simp only [getEnumMember, hidem]
  · show getEnumMember (some .lower) (lowStr (replaceNonWord v)) = _
    have hidem : lowStr (replaceNonWord (lowStr (replaceNonWord v))) =
        lowStr (replaceNonWord v) := by
      simp only [lowStr, replaceNonWord]
      exact congrArg String.mk (lowRepl_list_idem v.data)
    simp only [getEnumMember, hidem]
  · rfl

/-- Claim C7, witness. -/
theorem claim7_witness :
    (some EnumCasing.upper = some EnumCasing.value ∨
      some EnumCasing.upper = some EnumCasing.upper ∨
      some EnumCasing.upper = some EnumCasing.lower ∨
      some EnumCasing.upper = (none : Option EnumCasing)) ∧
    getEnumMember (some .upper)
        ((getEnumMember (some .upper) "foo bar!").enumValue) =
      getEnumMember (some .upper) "foo bar!" :=
  ⟨Or.inr (Or.inl rfl),
   claim7_amended (some .upper) "foo bar!" (Or.inr (Or.inl rfl))⟩

/-- Claim C9.  A namespace-qualified type reference whose dotted full path
is not a key of the path index passes through the rewrite pass (both as a
free-standing type node and as the type of a property signature) and the
final pass unchanged; no error is raised (the functions are total). -/
theorem claim9_unresolved_reference (st : St) (path parts : List String)
    (n : String)
    (h : mapGet st.enumsByPath (getFullPathFromQualifiedName parts) = none) :
    visitTy path st (.refQual parts) = .refQual parts ∧
    (∀ (opts : EnumPluginOptions) (strategy : EnumStrategy),
      visit opts strategy (.propSig n (.refQual parts)) path st =
        (.propSig n (.refQual parts), st)) ∧
    (∀ reg, finalPass reg (.propSig n (.refQual parts)) path =
      .propSig n (.refQual parts)) := by
  have h1 : visitTy path st (.refQual parts) = .refQual parts := by
    rw [visitTy, h]
  refine ⟨h1, fun opts strategy => ?_, fun reg => rfl⟩
  rw [visit, h, h1]

/-- Claim C9, witness. -/
theorem claim9_witness :
    mapGet (({} : St)).enumsByPath
        (getFullPathFromQualifiedName ["Foo", "Bar"]) = none ∧
    visitTy ["N"] {} (.refQual ["Foo", "Bar"]) = .refQual ["Foo", "Bar"] ∧
    visit {} .all (.propSig "x" (.refQual ["Foo", "Bar"])) ["N"] {} =
      (.propSig "x" (.refQual ["Foo", "Bar"]), ({} : St)) :=
  ⟨rfl,
   (claim9_unresolved_reference {} ["N"] ["Foo", "Bar"] "x" rfl).1,
   (claim9_unresolved_reference {} ["N"] ["Foo", "Bar"] "x" rfl).2.1 {} .all⟩

/-- Claim C8.  On an input document with no pre-existing enum declarations
(so that every enum declaration in the output was emitted by the
transform) and a registry whose indexes start empty (as `preProcess`
leaves them), every emitted enum declaration carries the const modifier
exactly when `constEnums` is `true`: with `constEnums := true` all of
them carry it, with `constEnums := false` (the default) none do. -/
theorem claim8_const_enums (opts : EnumPluginOptions) (st0 : St)
    (doc : NodeList) (h0 : noEnumDeclList doc = true)
    (h1 : st0.enumsByValues = []) (h2 : st0.enumsByPath = []) :
    constFlagOkList opts.constEnums (runTransform opts st0 doc) := by
  have hst0 : stSorted st0 := by
    constructor
    · rw [h1]
      intro kv hkv
      cases hkv
    · rw [h2]
      intro kv hkv
      cases hkv
  have hst1 := collectEnumsList_stSorted (opts.enumStrategy.getD .schema)
    doc [] st0 hst0
  have hv := visitList_ok opts (opts.enumStrategy.getD .schema) doc []
    (collectEnumsList (opts.enumStrategy.getD .schema) doc [] st0) hst1 h0
  have hf := finalPassList_emittedOk opts
    (visitList opts (opts.enumStrategy.getD .schema) doc []
      (collectEnumsList (opts.enumStrategy.getD .schema) doc [] st0)).2.enumRegistry
    (visitList opts (opts.enumStrategy.getD .schema) doc []
      (collectEnumsList (opts.enumStrategy.getD .schema) doc [] st0)).1 [] hv.1
  exact emittedEnumOkList_constFlag opts _ hf

/-- Claim C8, witness (the options set `constEnums := true`). -/
theorem claim8_witness :
    noEnumDeclList siblingStatusDoc = true ∧
    constFlagOkList
      ({ enumStrategy := some .all, constEnums := true } :
        EnumPluginOptions).constEnums
      (runTransform { enumStrategy := some .all, constEnums := true } {}
        siblingStatusDoc) :=
  ⟨by decide,
   claim8_const_enums { enumStrategy := some .all, constEnums := true } {}
     siblingStatusDoc (by decide) rfl rfl⟩

/-- Claim C10.  On an input document with no pre-existing enum declarations
and a registry whose indexes start empty, every enum declaration emitted
by the transform lists its members in the sorted order of the raw string
values (the JS default sort order, `strLe`), not in source order: each
emitted declaration's member list is the Casing Normalizer mapped over a
sorted raw value list (`registerEnum` sorts the candidate's value list in
place when computing the dedup key, and emission iterates that stored
sorted list). -/
theorem claim10_sorted_members (opts : EnumPluginOptions) (st0 : St)
    (doc : NodeList) (h0 : noEnumDeclList doc = true)
    (h1 : st0.enumsByValues = []) (h2 : st0.enumsByPath = []) :
    membersSortedOkList opts.consistentEnumCasing (runTransform opts st0 doc) := by
  have hst0 : stSorted st0 := by
    constructor
    · rw [h1]
      intro kv hkv
      cases hkv
    · rw [h2]
      intro kv hkv
      cases hkv
  have hst1 := collectEnumsList_stSorted (opts.enumStrategy.getD .schema)
    doc [] st0 hst0
  have hv := visitList_ok opts (opts.enumStrategy.getD .schema) doc []
    (collectEnumsList (opts.enumStrategy.getD .schema) doc [] st0) hst1 h0
  have hf := finalPassList_emittedOk opts
    (visitList opts (opts.enumStrategy.getD .schema) doc []
      (collectEnumsList (opts.enumStrategy.getD .schema) doc [] st0)).2.enumRegistry
    (visitList opts (opts.enumStrategy.getD .schema) doc []
      (collectEnumsList (opts.enumStrategy.getD .schema) doc [] st0)).1 [] hv.1
  exact emittedEnumOkList_membersSorted opts _ hf

/-- Claim C10, witness (the `strategyDoc` unions are written in unsorted
source order). -/
theorem claim10_witness :
    noEnumDeclList strategyDoc = true ∧
    membersSortedOkList
      ({ enumStrategy := some .all } : EnumPluginOptions).consistentEnumCasing
      (runTransform { enumStrategy := some .all } {} strategyDoc) :=
  ⟨by decide,
   claim10_sorted_members { enumStrategy := some .all } {} strategyDoc
     (by decide) rfl rfl⟩

end UseEnums
